import Mathlib

/-!
Verification of the alacritty utility scripts
(`scripts/apply-tilix-colorscheme.py` and `scripts/your_brand/rebranding.py`).

Python strings are modelled as `List Char`; a document is a list of lines
(`List (List Char)`), produced by `splitlines` from the raw file text.
-/

set_option autoImplicit false

/-- A document line, modelling a Python `str`. -/
abbrev Line := List Char

/-- The block key `'colors:'` of `patch_alaconf_colors`. -/
def keyChars : List Char := "colors:".toList

/-- Models Python `line.startswith('colors:')`: the first 7 characters of
`line` are exactly `colors:`. -/
def keyPre (l : Line) : Bool := decide (l.take 7 = keyChars)

/-- Models Python `line and line[0].isalpha()` (ASCII alphabetic; the
source never feeds non-ASCII block starts). Empty line gives `false`. -/
def headIsAlpha : Line → Bool
  | [] => false
  | c :: _ => c.isAlpha

/-- The line-scan loop of `patch_alaconf_colors` (source lines 71-84):
state is the `skipping` flag and the accumulated `lines` list.
While skipping, a line whose first character is alphabetic ends the skip
and is kept; otherwise the line is dropped.  While not skipping, a line
starting with the block key starts the skip and is dropped; a blank line
is dropped when the previously kept line is blank (Python
`if not line and lines and not lines[-1]: continue`); every other line
is appended. -/
def scanGo : Bool → List Line → List Line → List Line
  | _, acc, [] => acc
  | true, acc, line :: rest =>
    if headIsAlpha line then scanGo false (acc ++ [line]) rest
    else scanGo true acc rest
  | false, acc, line :: rest =>
    if keyPre line then scanGo true acc rest
    else if line = [] ∧ acc.getLast? = some [] then scanGo false acc rest
    else scanGo false (acc ++ [line]) rest

/-- Models Python `str.splitlines` for texts whose only line separator is
`'\n'` (the only separator the script ever writes): `""` gives `[]`, a
trailing newline does not create a final empty line. -/
def splitlines : List Char → List Line
  | [] => []
  | c :: rest =>
    if c = '\n' then [] :: splitlines rest
    else
      match splitlines rest with
      | [] => [[c]]
      | l :: ls => (c :: l) :: ls

/-- Models Python `'\n'.join(lines)`. -/
def joinNL : List Line → List Char
  | [] => []
  | [l] => l
  | l :: ls => l ++ '\n' :: joinNL ls

/-- The replacement colors value: a mapping from category name to a
mapping from field name to color string, as built by `convert`
(Python dict of dicts, modelled as an association list). -/
abbrev ColorsMap := List (Line × List (Line × Line))

/-- One serialized field line, `    field: value`. -/
def serializeFields (fields : List (Line × Line)) : List Line :=
  fields.map fun q => "    ".toList ++ q.1 ++ ':' :: ' ' :: q.2

/-- The serialized lines below the `colors:` head produced by
`yaml.safe_dump(dict(colors=colors))`: each category indented by two
spaces, each field by four.  (Scalar quoting and the alphabetical key
ordering of `safe_dump` are elided: the spec declares the serialization
format implementation-defined, and no claim depends on either.) -/
def serializeTail (m : ColorsMap) : List Line :=
  m.flatMap fun p => ("  ".toList ++ p.1 ++ [':']) :: serializeFields p.2

/-- All lines of `yaml.safe_dump(dict(colors=colors))`: the `colors:`
head followed by the indented body. -/
def serializeLines (m : ColorsMap) : List Line := keyChars :: serializeTail m

/-- The text written by `yaml.safe_dump(dict(colors=colors), fh)`
(newline-terminated). -/
def dumpText (m : ColorsMap) : List Char := joinNL (serializeLines m) ++ ['\n']

/-- `patch_alaconf_colors` (source lines 65-92) as a text-to-text
function: the file content written to the temp file is
`'\n'.join(lines)` followed by `'\n'` followed by the yaml dump.
The surrounding file I/O (temp file, `.bak` copy, rename) is not
modelled. -/
def patch_alaconf_colors (colors : ColorsMap) (ac_raw : List Char) : List Char :=
  joinNL (scanGo false [] (splitlines ac_raw)) ++ '\n' :: dumpText colors

/-- Append lines to `acc` collapsing consecutive blank lines, exactly the
kept-line rule of the scan when the skip flag never fires. -/
def colAppend (acc : List Line) : List Line → List Line
  | [] => acc
  | x :: r =>
    if x = [] ∧ acc.getLast? = some [] then colAppend acc r
    else colAppend (acc ++ [x]) r

/-- No two adjacent blank lines occur in the list. -/
def chainNoBB : List Line → Bool
  | [] => true
  | [_] => true
  | a :: b :: r => (!decide (a = [] ∧ b = [])) && chainNoBB (b :: r)

/-- Models Python `s.strip(c)` for a single strip character: removes all
leading and all trailing occurrences of `c`. -/
def pyStrip (c : Char) (s : List Char) : List Char :=
  ((s.dropWhile (· == c)).reverse.dropWhile (· == c)).reverse

/-- `fixup_hex_color` (source lines 36-39) on one argument:
`'0x%s' % arg.strip('#')`. -/
def fixup_hex_color (arg : Line) : Line := "0x".toList ++ pyStrip '#' arg

/-- The `Palette` namedtuple (source line 16). -/
structure Palette where
  black : Line
  red : Line
  green : Line
  yellow : Line
  blue : Line
  magenta : Line
  cyan : Line
  white : Line

/-- `Palette(*args)`: succeeds exactly on eight positional arguments
(fewer or more raise `TypeError`). -/
def mkPalette : List Line → Option Palette
  | [a, b, c, d, e, f, g, h] => some ⟨a, b, c, d, e, f, g, h⟩
  | _ => none

/-- `pal._asdict()` as an ordered association list. -/
def paletteFields (p : Palette) : List (Line × Line) :=
  [("black".toList, p.black), ("red".toList, p.red), ("green".toList, p.green),
   ("yellow".toList, p.yellow), ("blue".toList, p.blue), ("magenta".toList, p.magenta),
   ("cyan".toList, p.cyan), ("white".toList, p.white)]

/-- The fields of the tilix scheme that `convert` reads. -/
structure TilixScheme where
  palette : List Line
  background_color : Line
  foreground_color : Line
  cursor_background_color : Line
  cursor_foreground_color : Line

/-- `convert` (source lines 42-62).  The two `Palette(*...)` calls fail
(`TypeError`) unless handed exactly eight entries each, modelled by
`Option`. -/
def convert (j : TilixScheme) : Option ColorsMap :=
  let palette := j.palette.map fixup_hex_color
  match mkPalette (palette.take 8), mkPalette (palette.drop 8) with
  | some pn, some pb =>
    some [("primary".toList,
            [("background".toList, fixup_hex_color j.background_color),
             ("foreground".toList, fixup_hex_color j.foreground_color)]),
          ("cursor".toList,
            [("text".toList, fixup_hex_color j.cursor_background_color),
             ("cursor".toList, fixup_hex_color j.cursor_foreground_color)]),
          ("normal".toList, paletteFields pn),
          ("bright".toList, paletteFields pb)]
  | _, _ => none

/-- Look a category and field up in a converted colors value. -/
def lookupColor (m : ColorsMap) (cat fld : Line) : Option Line :=
  (m.lookup cat).bind fun fs => fs.lookup fld

/-- The string contains no newline character. -/
def noNL (s : List Char) : Bool := s.all fun c => c != '\n'

/-- Well-formed colors value: no category, field or value string contains
a newline (true of every value `convert` produces on hex colors; keeps
the one-line-per-field shape of the yaml dump faithful). -/
def wfMap (m : ColorsMap) : Bool :=
  m.all fun p => noNL p.1 && p.2.all fun q => noNL q.1 && noNL q.2

/-- Outcome of the validation prefix of the rebranding tool's `main`
(source lines 226-266), up to and including its first file write
(`os.system("echo '<new>' > brand_name.txt")`).  `earlyExit code writes`
is `sys.exit(code)` after the listed file writes; `revertRun` is the
`--revert` path (its file operations are not modelled); `proceeds writes`
means validation passed and the listed files were written. -/
inductive MainOutcome where
  | earlyExit : Nat → List Line → MainOutcome
  | revertRun : MainOutcome
  | proceeds : List Line → MainOutcome
deriving DecidableEq

/-- Models `re.match(r'^[a-zA-Z0-9]+$', s)` being truthy.  Python's `$`
matches at the end of the string or just before a trailing newline, so a
nonempty alphanumeric string optionally followed by one `'\n'` matches. -/
def reMatchAlnumLine (s : List Char) : Bool :=
  (!s.isEmpty && s.all Char.isAlphanum) ||
    (s.getLast? == some '\n' && (!s.dropLast.isEmpty && s.dropLast.all Char.isAlphanum))

/-- Models `str(args.new).lower == "alacritty"` (source line 262): the
bound method object `str.lower` is compared (not called), so the
condition is never true. -/
def same_name_check (_ : List Char) : Bool := false

/-- The validation prefix of `main` in `rebranding.py`: working-directory
check, brand-folder check, `--revert` dispatch, the `--new` regex check,
the (broken) same-name check, then the `brand_name.txt` write.
`cwd_last` is the last component of `os.getcwd()`; `brand` is
`args.brand` after the `if not args.brand: args.brand = ""` default. -/
def rebrand_main (cwd_last brand : List Char) (brand_exists revert : Bool)
    (newArg : List Char) : MainOutcome :=
  if cwd_last ≠ "your_brand".toList then .earlyExit 1 []
  else if brand ≠ [] ∧ brand_exists = false then .earlyExit 1 []
  else if revert then .revertRun
  else if reMatchAlnumLine newArg = false then .earlyExit 1 []
  else if same_name_check newArg = true then .earlyExit 1 []
  else .proceeds ["brand_name.txt".toList]

/-- The replacement value `{g: {k: v}}` of the spec's scenario. -/
def csEx : ColorsMap := [("g".toList, [("k".toList, "v".toList)])]

/-- A tilix scheme with 16 distinct palette entries,
`background=#000000` and `foreground=#FFFFFF`. -/
def exScheme : TilixScheme where
  palette :=
    ["#000001", "#000002", "#000003", "#000004", "#000005", "#000006",
     "#000007", "#000008", "#000009", "#00000a", "#00000b", "#00000c",
     "#00000d", "#00000e", "#00000f", "#000010"].map String.toList
  background_color := "#000000".toList
  foreground_color := "#FFFFFF".toList
  cursor_background_color := "#CCCCCC".toList
  cursor_foreground_color := "#DDDDDD".toList

/-- A tilix scheme whose palette has only two entries. -/
def shortScheme : TilixScheme where
  palette := ["#000000".toList, "#111111".toList]
  background_color := "#000000".toList
  foreground_color := "#FFFFFF".toList
  cursor_background_color := "#CCCCCC".toList
  cursor_foreground_color := "#DDDDDD".toList

lemma keyPre_nil : keyPre [] = false := by decide

lemma keyPre_key : keyPre keyChars = true := by decide

lemma headIsAlpha_ne_nil {l : Line} (h : headIsAlpha l = true) : l ≠ [] := by
  cases l with
  | nil => simp [headIsAlpha] at h
  | cons c cs => simp

lemma keyPre_head {l : Line} (h : keyPre l = true) : headIsAlpha l = true := by
  cases l with
  | nil => simp [keyPre, keyChars] at h
  | cons c cs =>
    rw [keyPre, decide_eq_true_iff] at h
    rw [List.take_cons] at h
    have hc : c = 'c' := by
      have := congrArg List.head? h
      simpa [keyChars] using this
    subst hc
    simp [headIsAlpha]
    decide

lemma scanGo_skip_stay (acc : List Line) (line : Line) (rest : List Line)
    (h : headIsAlpha line = false) :
    scanGo true acc (line :: rest) = scanGo true acc rest := by
  simp [scanGo, h]

lemma scanGo_unskip (acc : List Line) (line : Line) (rest : List Line)
    (h : headIsAlpha line = true) :
    scanGo true acc (line :: rest) = scanGo false (acc ++ [line]) rest := by
  simp [scanGo, h]

lemma scanGo_enter (acc : List Line) (line : Line) (rest : List Line)
    (h : keyPre line = true) :
    scanGo false acc (line :: rest) = scanGo true acc rest := by
  simp [scanGo, h]

lemma scanGo_copy (acc : List Line) (line : Line) (rest : List Line)
    (hk : keyPre line = false) (hg : ¬(line = [] ∧ acc.getLast? = some [])) :
    scanGo false acc (line :: rest) = scanGo false (acc ++ [line]) rest := by
  simp [scanGo, hk, hg]

lemma scanGo_dropblank (acc : List Line) (rest : List Line)
    (hg : acc.getLast? = some []) :
    scanGo false acc ([] :: rest) = scanGo false acc rest := by
  simp [scanGo, keyPre_nil, hg]

lemma mem_scanGo {x : Line} :
    ∀ (inp : List Line) (sk : Bool) (acc : List Line),
      x ∈ scanGo sk acc inp → x ∈ acc ∨ x ∈ inp := by
  intro inp
  induction inp with
  | nil =>
    intro sk acc h
    exact Or.inl (by simpa [scanGo] using h)
  | cons line rest ih =>
    intro sk acc h
    cases sk with
    | true =>
      by_cases ha : headIsAlpha line = true
      · rw [scanGo_unskip _ _ _ ha] at h
        rcases ih _ _ h with h' | h'
        · rcases List.mem_append.mp h' with h'' | h''
          · exact Or.inl h''
          · exact Or.inr ((List.mem_singleton.mp h'') ▸ List.mem_cons_self _ _)
        · exact Or.inr (List.mem_cons_of_mem _ h')
      · rw [scanGo_skip_stay _ _ _ (by simpa using ha)] at h
        rcases ih _ _ h with h' | h'
        · exact Or.inl h'
        · exact Or.inr (List.mem_cons_of_mem _ h')
    | false =>
      by_cases hk : keyPre line = true
      · rw [scanGo_enter _ _ _ hk] at h
        rcases ih _ _ h with h' | h'
        · exact Or.inl h'
        · exact Or.inr (List.mem_cons_of_mem _ h')
      · by_cases hg : line = [] ∧ acc.getLast? = some []
        · obtain ⟨h1, h2⟩ := hg
          subst h1
          rw [scanGo_dropblank _ _ h2] at h
          rcases ih _ _ h with h' | h'
          · exact Or.inl h'
          · exact Or.inr (List.mem_cons_of_mem _ h')
        · rw [scanGo_copy _ _ _ (by simpa using hk) hg] at h
          rcases ih _ _ h with h' | h'
          · rcases List.mem_append.mp h' with h'' | h''
            · exact Or.inl h''
            · exact Or.inr ((List.mem_singleton.mp h'') ▸ List.mem_cons_self _ _)
          · exact Or.inr (List.mem_cons_of_mem _ h')

lemma mem_acc_scanGo {x : Line} :
    ∀ (inp : List Line) (sk : Bool) (acc : List Line),
      x ∈ acc → x ∈ scanGo sk acc inp := by
  intro inp
  induction inp with
  | nil =>
    intro sk acc h
    simpa [scanGo] using h
  | cons line rest ih =>
    intro sk acc h
    cases sk with
    | true =>
      by_cases ha : headIsAlpha line = true
      · rw [scanGo_unskip _ _ _ ha]
        exact ih _ _ (List.mem_append_left _ h)
      · rw [scanGo_skip_stay _ _ _ (by simpa using ha)]
        exact ih _ _ h
    | false =>
      by_cases hk : keyPre line = true
      · rw [scanGo_enter _ _ _ hk]
        exact ih _ _ h
      · by_cases hg : line = [] ∧ acc.getLast? = some []
        · obtain ⟨h1, h2⟩ := hg
          subst h1
          rw [scanGo_dropblank _ _ h2]
          exact ih _ _ h
        · rw [scanGo_copy _ _ _ (by simpa using hk) hg]
          exact ih _ _ (List.mem_append_left _ h)

lemma chainNoBB_append {acc : List Line} {x : Line} (h : chainNoBB acc = true)
    (hx : ¬(x = [] ∧ acc.getLast? = some [])) : chainNoBB (acc ++ [x]) = true := by
  induction acc with
  | nil => simp [chainNoBB]
  | cons a t ih =>
    cases t with
    | nil =>
      have hax : ¬(a = [] ∧ x = []) := by
        rintro ⟨ha, hxx⟩
        exact hx ⟨hxx, by simp [ha]⟩
      simp [chainNoBB, hax]
    | cons b r =>
      rw [List.cons_append]
      have h' : (!decide (a = [] ∧ b = [])) = true ∧ chainNoBB (b :: r) = true := by
        simpa [chainNoBB, Bool.and_eq_true] using h
      have hx' : ¬(x = [] ∧ (b :: r).getLast? = some []) := by
        simpa [List.getLast?_cons_cons] using hx
      have := ih h'.2 hx'
      rw [List.cons_append] at this ⊢
      simpa [chainNoBB, this] using h'.1

lemma chainNoBB_scanGo :
    ∀ (inp : List Line) (sk : Bool) (acc : List Line),
      chainNoBB acc = true → chainNoBB (scanGo sk acc inp) = true := by
  intro inp
  induction inp with
  | nil =>
    intro sk acc h
    simpa [scanGo] using h
  | cons line rest ih =>
    intro sk acc h
    cases sk with
    | true =>
      by_cases ha : headIsAlpha line = true
      · rw [scanGo_unskip _ _ _ ha]
        refine ih _ _ (chainNoBB_append h ?_)
        rintro ⟨h1, _⟩
        exact headIsAlpha_ne_nil ha h1
      · rw [scanGo_skip_stay _ _ _ (by simpa using ha)]
        exact ih _ _ h
    | false =>
      by_cases hk : keyPre line = true
      · rw [scanGo_enter _ _ _ hk]
        exact ih _ _ h
      · by_cases hg : line = [] ∧ acc.getLast? = some []
        · obtain ⟨h1, h2⟩ := hg
          subst h1
          rw [scanGo_dropblank _ _ h2]
          exact ih _ _ h
        · rw [scanGo_copy _ _ _ (by simpa using hk) hg]
          exact ih _ _ (chainNoBB_append h hg)

lemma mem_colAppend {x : Line} :
    ∀ (l : List Line) (acc : List Line),
      x ∈ colAppend acc l → x ∈ acc ∨ x ∈ l := by
  intro l
  induction l with
  | nil =>
    intro acc h
    exact Or.inl (by simpa [colAppend] using h)
  | cons y r ih =>
    intro acc h
    by_cases hg : y = [] ∧ acc.getLast? = some []
    · rw [colAppend, if_pos hg] at h
      rcases ih _ h with h' | h'
      · exact Or.inl h'
      · exact Or.inr (List.mem_cons_of_mem _ h')
    · rw [colAppend, if_neg hg] at h
      rcases ih _ h with h' | h'
      · rcases List.mem_append.mp h' with h'' | h''
        · exact Or.inl h''
        · exact Or.inr ((List.mem_singleton.mp h'') ▸ List.mem_cons_self _ _)
      · exact Or.inr (List.mem_cons_of_mem _ h')

lemma chainNoBB_colAppend :
    ∀ (l : List Line) (acc : List Line),
      chainNoBB acc = true → chainNoBB (colAppend acc l) = true := by
  intro l
  induction l with
  | nil =>
    intro acc h
    simpa [colAppend] using h
  | cons y r ih =>
    intro acc h
    by_cases hg : y = [] ∧ acc.getLast? = some []
    · rw [colAppend, if_pos hg]
      exact ih _ h
    · rw [colAppend, if_neg hg]
      exact ih _ (chainNoBB_append h hg)

lemma chainNoBB_bad :
    ∀ (acc : List Line) (r : List Line), acc.getLast? = some ([] : Line) →
      chainNoBB (acc ++ [] :: r) = false := by
  intro acc
  induction acc with
  | nil =>
    intro r h
    simp at h
  | cons a t ih =>
    intro r h
    cases t with
    | nil =>
      have ha : a = [] := by simpa using h
      subst ha
      simp [chainNoBB]
    | cons b u =>
      have h' : (b :: u).getLast? = some ([] : Line) := by
        simpa [List.getLast?_cons_cons] using h
      have h2 : chainNoBB (b :: (u ++ [] :: r)) = false := by
        rw [← List.cons_append]
        exact ih r h'
      rw [List.cons_append, List.cons_append, chainNoBB]
      simp [h2]

lemma colAppend_eq_append :
    ∀ (l : List Line) (acc : List Line),
      chainNoBB (acc ++ l) = true → colAppend acc l = acc ++ l := by
  intro l
  induction l with
  | nil =>
    intro acc _
    simp [colAppend]
  | cons x r ih =>
    intro acc h
    by_cases hg : x = [] ∧ acc.getLast? = some []
    · exfalso
      obtain ⟨h1, h2⟩ := hg
      subst h1
      rw [chainNoBB_bad acc r h2] at h
      exact Bool.false_ne_true h
    · rw [colAppend, if_neg hg]
      have h' : chainNoBB ((acc ++ [x]) ++ r) = true := by
        simpa [List.append_assoc] using h
      rw [ih _ h']
      simp

lemma scanGo_no_key :
    ∀ (pre : List Line), (∀ l ∈ pre, keyPre l = false) →
      ∀ (acc : List Line) (r : List Line),
        scanGo false acc (pre ++ r) = scanGo false (colAppend acc pre) r := by
  intro pre
  induction pre with
  | nil =>
    intro _ acc r
    simp [colAppend]
  | cons x t ih =>
    intro hp acc r
    have hk : keyPre x = false := hp x (List.mem_cons_self _ _)
    have ht : ∀ l ∈ t, keyPre l = false := fun l hl => hp l (List.mem_cons_of_mem _ hl)
    rw [List.cons_append]
    by_cases hg : x = [] ∧ acc.getLast? = some []
    · obtain ⟨h1, h2⟩ := hg
      subst h1
      rw [scanGo_dropblank _ _ h2, ih ht acc r, colAppend, if_pos ⟨rfl, h2⟩]
    · rw [scanGo_copy _ _ _ hk hg, ih ht (acc ++ [x]) r, colAppend, if_neg hg]

lemma scanGo_skip_run :
    ∀ (mid : List Line), (∀ l ∈ mid, headIsAlpha l = false) →
      ∀ (acc : List Line) (r : List Line),
        scanGo true acc (mid ++ r) = scanGo true acc r := by
  intro mid
  induction mid with
  | nil =>
    intro _ acc r
    simp
  | cons x t ih =>
    intro hm acc r
    rw [List.cons_append,
      scanGo_skip_stay _ _ _ (hm x (List.mem_cons_self _ _)),
      ih (fun l hl => hm l (List.mem_cons_of_mem _ hl)) acc r]

lemma scanGo_blank_run :
    ∀ (m : Nat) (acc : List Line) (rest : List Line),
      acc.getLast? = some ([] : Line) →
      scanGo false acc (List.replicate m [] ++ rest) = scanGo false acc rest := by
  intro m
  induction m with
  | zero =>
    intro acc rest _
    simp
  | succ n ih =>
    intro acc rest h
    rw [List.replicate_succ, List.cons_append, scanGo_dropblank _ _ h, ih acc rest h]

lemma splitlines_newline (t : List Char) : splitlines ('\n' :: t) = [] :: splitlines t := by
  simp [splitlines]

lemma splitlines_append (l : Line) (t : List Char) (h : '\n' ∉ l) :
    splitlines (l ++ '\n' :: t) = l :: splitlines t := by
  induction l with
  | nil => simp [splitlines]
  | cons c cs ih =>
    have hc : ¬(c = '\n') := fun e => h (e ▸ List.mem_cons_self _ _)
    have h' : '\n' ∉ cs := fun m => h (List.mem_cons_of_mem _ m)
    rw [List.cons_append, splitlines, if_neg hc, ih h']

lemma splitlines_join :
    ∀ (L : List Line), L ≠ [] → (∀ l ∈ L, '\n' ∉ l) →
      ∀ (t : List Char), splitlines (joinNL L ++ '\n' :: t) = L ++ splitlines t := by
  intro L
  induction L with
  | nil => intro h; exact absurd rfl h
  | cons l ls ih =>
    intro _ hnl t
    cases ls with
    | nil =>
      rw [joinNL]
      exact splitlines_append l t (hnl l (List.mem_cons_self _ _))
    | cons l2 ls2 =>
      rw [joinNL, List.append_assoc, List.cons_append,
        splitlines_append l _ (hnl l (List.mem_cons_self _ _)),
        ih (List.cons_ne_nil _ _) (fun x hx => hnl x (List.mem_cons_of_mem _ hx)) t]
      · rfl
      · exact fun h => List.noConfusion h

lemma splitlines_no_newline :
    ∀ (s : List Char), ∀ l ∈ splitlines s, '\n' ∉ l := by
  intro s
  induction s with
  | nil => simp [splitlines]
  | cons c rest ih =>
    by_cases hc : c = '\n'
    · subst hc
      rw [splitlines_newline]
      intro l hl
      rcases List.mem_cons.mp hl with h | h
      · subst h; simp
      · exact ih l h
    · rw [splitlines, if_neg hc]
      cases hsp : splitlines rest with
      | nil =>
        intro l hl
        have : l = [c] := by simpa using hl
        subst this
        simpa using Ne.symm hc
      | cons m ms =>
        intro l hl
        rcases List.mem_cons.mp hl with h | h
        · subst h
          intro hmem
          rcases List.mem_cons.mp hmem with h' | h'
          · exact hc h'.symm
          · exact ih m (by rw [hsp]; exact List.mem_cons_self _ _) h'
        · exact ih l (by rw [hsp]; exact List.mem_cons_of_mem _ h)

lemma noNL_iff {s : List Char} : noNL s = true ↔ '\n' ∉ s := by
  rw [noNL, List.all_eq_true]
  constructor
  · intro h hm
    simpa using h _ hm
  · intro h c hc
    simp only [bne_iff_ne, ne_eq]
    exact fun e => h (e ▸ hc)

lemma serializeTail_head_space (m : ColorsMap) :
    ∀ l ∈ serializeTail m, headIsAlpha l = false := by
  intro l hl
  rw [serializeTail, List.mem_flatMap] at hl
  obtain ⟨p, _, hp⟩ := hl
  rcases List.mem_cons.mp hp with h | h
  · subst h
    simp [headIsAlpha]
  · rw [serializeFields, List.mem_map] at h
    obtain ⟨q, _, hq⟩ := h
    subst hq
    simp [headIsAlpha]

lemma wfMap_parts {m : ColorsMap} (hw : wfMap m = true) :
    ∀ p ∈ m, noNL p.1 = true ∧ ∀ q ∈ p.2, noNL q.1 = true ∧ noNL q.2 = true := by
  rw [wfMap, List.all_eq_true] at hw
  intro p hp
  have := hw p hp
  rw [Bool.and_eq_true, List.all_eq_true] at this
  refine ⟨this.1, fun q hq => ?_⟩
  have h2 := this.2 q hq
  rw [Bool.and_eq_true] at h2
  exact h2

lemma serializeLines_no_newline (m : ColorsMap) (hw : wfMap m = true) :
    ∀ l ∈ serializeLines m, '\n' ∉ l := by
  intro l hl
  rw [serializeLines] at hl
  rcases List.mem_cons.mp hl with h | h
  · subst h
    decide
  · rw [serializeTail, List.mem_flatMap] at h
    obtain ⟨p, hpm, hp⟩ := h
    have hwp := wfMap_parts hw p hpm
    rcases List.mem_cons.mp hp with h' | h'
    · subst h'
      intro hmem
      rcases List.mem_append.mp hmem with h1 | h1
      · rcases List.mem_append.mp h1 with h2 | h2
        · simp at h2
        · exact noNL_iff.mp hwp.1 h2
      · simp at h1
    · rw [serializeFields, List.mem_map] at h'
      obtain ⟨q, hq, hqe⟩ := h'
      subst hqe
      have hwq := hwp.2 q hq
      intro hmem
      rcases List.mem_append.mp hmem with h1 | h1
      · rcases List.mem_append.mp h1 with h2 | h2
        · simp at h2
        · exact noNL_iff.mp hwq.1 h2
      · rcases List.mem_cons.mp h1 with h2 | h2
        · simp at h2
        · rcases List.mem_cons.mp h2 with h3 | h3
          · simp at h3
          · exact noNL_iff.mp hwq.2 h3

lemma serializeLines_ne_nil (m : ColorsMap) : serializeLines m ≠ [] := by
  simp [serializeLines]

lemma splitlines_dumpText (m : ColorsMap) (hw : wfMap m = true) :
    splitlines (dumpText m) = serializeLines m := by
  have h := splitlines_join (serializeLines m) (serializeLines_ne_nil m)
    (serializeLines_no_newline m hw) []
  rw [dumpText]
  simpa [splitlines] using h

lemma scan_one_key (pre post : List Line) (k : Line)
    (hpre : ∀ l ∈ pre, keyPre l = false) (hk : keyPre k = true) :
    scanGo false [] (pre ++ k :: post) = scanGo true (colAppend [] pre) post := by
  rw [scanGo_no_key pre hpre [] (k :: post), scanGo_enter _ _ _ hk]

lemma scan_keep_clean (L : List Line) (cs : ColorsMap)
    (hnk : ∀ l ∈ L, keyPre l = false) (hch : chainNoBB L = true) :
    scanGo false [] (L ++ serializeLines cs) = L := by
  rw [scanGo_no_key L hnk [] (serializeLines cs),
    colAppend_eq_append L [] (by simpa using hch)]
  simp only [List.nil_append]
  rw [serializeLines, scanGo_enter _ _ _ keyPre_key]
  have h := scanGo_skip_run (serializeTail cs) (serializeTail_head_space cs) L []
  rw [List.append_nil] at h
  rw [h, scanGo]

/-- C4: for a document whose line split contains exactly one line starting
with the block key (decomposition `pre ++ k :: post` with `k` the only
key line), patching twice with the same replacement value gives the same
file text as patching once.  `wfMap cs` keeps the modelled yaml dump one
line per field. -/
theorem c4_patch_idempotent (cs : ColorsMap) (raw : List Char) (pre post : List Line)
    (k : Line) (hw : wfMap cs = true) (hsplit : splitlines raw = pre ++ k :: post)
    (hpre : ∀ l ∈ pre, keyPre l = false) (hk : keyPre k = true)
    (hpost : ∀ l ∈ post, keyPre l = false) :
    patch_alaconf_colors cs (patch_alaconf_colors cs raw) = patch_alaconf_colors cs raw := by
  have hout1 : patch_alaconf_colors cs raw =
      joinNL (scanGo true (colAppend [] pre) post) ++ '\n' :: dumpText cs := by
    rw [patch_alaconf_colors, hsplit, scan_one_key pre post k hpre hk]
  set L1 := scanGo true (colAppend [] pre) post with hL1def
  have hnk : ∀ x ∈ L1, keyPre x = false := by
    intro x hx
    rcases mem_scanGo post true (colAppend [] pre) hx with h | h
    · rcases mem_colAppend pre [] h with h0 | h0
      · exact absurd h0 (List.not_mem_nil x)
      · exact hpre x h0
    · exact hpost x h
  have hch : chainNoBB L1 = true :=
    chainNoBB_scanGo post true (colAppend [] pre) (chainNoBB_colAppend pre [] rfl)
  have hnl : ∀ x ∈ L1, '\n' ∉ x := by
    intro x hx
    rcases mem_scanGo post true (colAppend [] pre) hx with h | h
    · rcases mem_colAppend pre [] h with h0 | h0
      · exact absurd h0 (List.not_mem_nil x)
      · exact splitlines_no_newline raw x
          (by rw [hsplit]; exact List.mem_append_left _ h0)
    · exact splitlines_no_newline raw x
        (by rw [hsplit]; exact List.mem_append_right _ (List.mem_cons_of_mem _ h))
  by_cases hL : L1 = []
  · rw [hout1, hL]
    have he : joinNL ([] : List Line) ++ '\n' :: dumpText cs = '\n' :: dumpText cs := by
      simp [joinNL]
    rw [he, patch_alaconf_colors, splitlines_newline, splitlines_dumpText cs hw,
      serializeLines,
      scanGo_copy [] [] (keyChars :: serializeTail cs) keyPre_nil (by simp),
      scanGo_enter _ _ _ keyPre_key]
    have h := scanGo_skip_run (serializeTail cs) (serializeTail_head_space cs)
      ([] ++ [[]]) []
    rw [List.append_nil] at h
    rw [h]
    simp [scanGo, joinNL]
  · rw [hout1, patch_alaconf_colors, splitlines_join L1 hL hnl (dumpText cs),
      splitlines_dumpText cs hw, scan_keep_clean L1 cs hnk hch]

/-- C4 witness: concrete document `a / colors: /   x / b` with the
scenario replacement value. -/
theorem c4_patch_idempotent_witness :
    patch_alaconf_colors csEx (patch_alaconf_colors csEx ("a\ncolors:\n  x\nb".toList)) =
      patch_alaconf_colors csEx ("a\ncolors:\n  x\nb".toList) :=
  c4_patch_idempotent csEx _ ["a".toList] ["  x".toList, "b".toList] ("colors:".toList)
    (by decide) (by decide) (by decide) (by decide) (by decide)

/-- C1 is false as stated: on the key-free document `a / blank / blank / b`
the output is not the original content followed by one blank line and the
block — the blank run is collapsed and no separating blank line is
emitted. -/
theorem c1_counterexample :
    (∀ l ∈ splitlines ("a\n\n\nb".toList), keyPre l = false) ∧
      splitlines (patch_alaconf_colors csEx ("a\n\n\nb".toList)) ≠
        splitlines ("a\n\n\nb".toList) ++ [[]] ++ serializeLines csEx := by
  decide

/-- C1 (amended): when no line starts with the block key, the output is
the original content with consecutive blank lines collapsed, newline
terminated, with the serialized block appended directly (no separating
blank line). -/
theorem c1_no_key_append (cs : ColorsMap) (raw : List Char)
    (h : ∀ l ∈ splitlines raw, keyPre l = false) :
    patch_alaconf_colors cs raw =
      joinNL (colAppend [] (splitlines raw)) ++ '\n' :: dumpText cs := by
  rw [patch_alaconf_colors]
  have h0 := scanGo_no_key (splitlines raw) h [] []
  rw [List.append_nil] at h0
  rw [h0]
  simp [scanGo]

/-- C1 witness: the amended statement evaluated on the counterexample
document. -/
theorem c1_no_key_append_witness :
    patch_alaconf_colors csEx ("a\n\n\nb".toList) =
      joinNL (colAppend [] (splitlines ("a\n\n\nb".toList))) ++ '\n' :: dumpText csEx :=
  c1_no_key_append csEx _ (by decide)

/-- C2 is false as stated: on the spec's scenario document the output
contains no blank line at all, while the claimed output has a blank line
at position 1 (whatever the serialization of the block). -/
theorem c2_counterexample :
    ([] : Line) ∉
      splitlines (patch_alaconf_colors csEx ("a: 1\ncolors:\n  x: 1\n\n\nb: 2".toList)) := by
  decide

/-- C2 (amended): on the scenario document the blank lines after the
removed block are consumed by the skip, and the serialized block is
appended at the end: the output lines are `a: 1`, `b: 2`, then the
block. -/
theorem c2_amended_scenario :
    splitlines (patch_alaconf_colors csEx ("a: 1\ncolors:\n  x: 1\n\n\nb: 2".toList)) =
      ["a: 1".toList, "b: 2".toList] ++ serializeLines csEx := by
  decide

/-- C3: a key line met while not skipping sets the flag and is dropped;
while skipping, a line is dropped unless its first character is
alphabetic, in which case the flag clears and the line is kept. -/
theorem c3_scan_transitions (acc : List Line) (line : Line) (rest : List Line) :
    (keyPre line = true → scanGo false acc (line :: rest) = scanGo true acc rest) ∧
    (headIsAlpha line = false → scanGo true acc (line :: rest) = scanGo true acc rest) ∧
    (headIsAlpha line = true →
      scanGo true acc (line :: rest) = scanGo false (acc ++ [line]) rest) :=
  ⟨scanGo_enter acc line rest, scanGo_skip_stay acc line rest, scanGo_unskip acc line rest⟩

/-- C3 witness: the three transitions at concrete lines. -/
theorem c3_scan_transitions_witness :
    scanGo false [] ["colors: x".toList] = scanGo true [] [] ∧
    scanGo true [] ["  y".toList] = scanGo true [] [] ∧
    scanGo true [] ["b: 2".toList] = scanGo false ([] ++ ["b: 2".toList]) [] :=
  ⟨(c3_scan_transitions [] ("colors: x".toList) []).1 (by decide),
   (c3_scan_transitions [] ("  y".toList) []).2.1 (by decide),
   (c3_scan_transitions [] ("b: 2".toList) []).2.2 (by decide)⟩

/-- C5 is false as stated: in `a / colors: /   x / blank / blank / b` the
two consecutive blank lines lie outside (after) the colors block, yet the
output contains no blank line at all — the skip consumes them. -/
theorem c5_counterexample :
    (splitlines ("a\ncolors:\n  x\n\n\nb".toList)).count ([] : Line) = 2 ∧
      (splitlines (patch_alaconf_colors csEx ("a\ncolors:\n  x\n\n\nb".toList))).count
        ([] : Line) = 0 := by
  decide

/-- C5 (amended): the scan output never holds two adjacent blank lines,
and a run of blank lines processed while the flag is false (after a kept
non-blank line) contributes exactly one blank line. -/
theorem c5_blank_collapse (doc acc rest : List Line) (n : Nat) (hn : 1 ≤ n)
    (hacc : acc.getLast? ≠ some ([] : Line)) :
    chainNoBB (scanGo false [] doc) = true ∧
      scanGo false acc (List.replicate n [] ++ rest) = scanGo false (acc ++ [[]]) rest := by
  refine ⟨chainNoBB_scanGo doc false [] rfl, ?_⟩
  obtain ⟨m, rfl⟩ : ∃ m, n = m + 1 := ⟨n - 1, by omega⟩
  rw [List.replicate_succ, List.cons_append,
    scanGo_copy acc [] _ keyPre_nil (fun h => hacc h.2)]
  exact scanGo_blank_run m (acc ++ [[]]) rest (by simp)

/-- C5 witness: a run of two blank lines after a kept non-blank line. -/
theorem c5_blank_collapse_witness :
    chainNoBB (scanGo false [] ["a".toList]) = true ∧
      scanGo false ["a".toList] (List.replicate 2 [] ++ []) =
        scanGo false (["a".toList] ++ [[]]) [] :=
  c5_blank_collapse ["a".toList] ["a".toList] [] 2 (by decide) (by decide)

/-- C10: a second key line met while skipping ends the skip (its first
character `c` is alphabetic) and is kept, so the output still contains a
line starting with the block key; only the first block is removed. -/
theorem c10_second_key_kept (acc : List Line) (line : Line) (rest : List Line)
    (h : keyPre line = true) :
    scanGo true acc (line :: rest) = scanGo false (acc ++ [line]) rest ∧
      ∃ l, l ∈ scanGo true acc (line :: rest) ∧ keyPre l = true := by
  have h1 := scanGo_unskip acc line rest (keyPre_head h)
  refine ⟨h1, line, ?_, h⟩
  rw [h1]
  exact mem_acc_scanGo rest false (acc ++ [line])
    (List.mem_append_right _ (List.mem_singleton.mpr rfl))

/-- C10 witness: a second `colors:` line while skipping. -/
theorem c10_second_key_kept_witness :
    scanGo true ["a".toList] ["colors: y".toList, "  z".toList] =
      scanGo false (["a".toList] ++ ["colors: y".toList]) ["  z".toList] ∧
      ∃ l, l ∈ scanGo true ["a".toList] ["colors: y".toList, "  z".toList] ∧
        keyPre l = true :=
  c10_second_key_kept ["a".toList] ("colors: y".toList) ["  z".toList] (by decide)

lemma mkPalette_of_len (l : List Line) (h : l.length = 8) : ∃ p, mkPalette l = some p := by
  rcases l with _ | ⟨a, _ | ⟨b, _ | ⟨c, _ | ⟨d, _ | ⟨e, _ | ⟨f, _ | ⟨g, _ | ⟨h8, _ | ⟨i, t⟩⟩⟩⟩⟩⟩⟩⟩⟩ <;>
    simp only [List.length_cons, List.length_nil] at h <;>
    first
      | exact ⟨_, rfl⟩
      | omega

lemma mkPalette_eq_none (l : List Line) (h : l.length ≠ 8) : mkPalette l = none := by
  rcases l with _ | ⟨a, _ | ⟨b, _ | ⟨c, _ | ⟨d, _ | ⟨e, _ | ⟨f, _ | ⟨g, _ | ⟨h8, _ | ⟨i, t⟩⟩⟩⟩⟩⟩⟩⟩⟩ <;>
    first
      | rfl
      | exact absurd (by simp) h

/-- C6 is false as stated: with `background=#000000`, `foreground=#FFFFFF`
and 16 palette entries, the converted `primary.foreground` is
`0xFFFFFF` (case preserved), not `0xffffff`. -/
theorem c6_counterexample :
    ¬((convert exScheme).bind
        (fun m => lookupColor m ("primary".toList) ("background".toList)) =
          some ("0x000000".toList) ∧
      (convert exScheme).bind
        (fun m => lookupColor m ("primary".toList) ("foreground".toList)) =
          some ("0xffffff".toList)) := by
  decide

/-- C6 (amended): with those auxiliary colors and a 16-entry palette,
conversion succeeds, `primary.background = "0x000000"` and
`primary.foreground = "0xFFFFFF"` — a leading `#` is stripped, `0x` is
prefixed, and the case of the hex digits is preserved. -/
theorem c6_amended (j : TilixScheme) (h16 : j.palette.length = 16)
    (hbg : j.background_color = "#000000".toList)
    (hfg : j.foreground_color = "#FFFFFF".toList) :
    ∃ m, convert j = some m ∧
      lookupColor m ("primary".toList) ("background".toList) = some ("0x000000".toList) ∧
      lookupColor m ("primary".toList) ("foreground".toList) = some ("0xFFFFFF".toList) := by
  have hlen : (j.palette.map fixup_hex_color).length = 16 := by
    rw [List.length_map, h16]
  obtain ⟨pn, hpn⟩ := mkPalette_of_len ((j.palette.map fixup_hex_color).take 8)
    (by rw [List.length_take, hlen]; omega)
  obtain ⟨pb, hpb⟩ := mkPalette_of_len ((j.palette.map fixup_hex_color).drop 8)
    (by rw [List.length_drop, hlen])
  have hc : convert j = some
      [("primary".toList,
         [("background".toList, fixup_hex_color j.background_color),
          ("foreground".toList, fixup_hex_color j.foreground_color)]),
       ("cursor".toList,
         [("text".toList, fixup_hex_color j.cursor_background_color),
          ("cursor".toList, fixup_hex_color j.cursor_foreground_color)]),
       ("normal".toList, paletteFields pn),
       ("bright".toList, paletteFields pb)] := by
    simp only [convert]
    rw [hpn, hpb]
  refine ⟨_, hc, ?_, ?_⟩
  · rw [hbg]
    rfl
  · rw [hfg]
    rfl

/-- C6 witness: the amended statement evaluated at the concrete scheme. -/
theorem c6_amended_witness :
    ∃ m, convert exScheme = some m ∧
      lookupColor m ("primary".toList) ("background".toList) = some ("0x000000".toList) ∧
      lookupColor m ("primary".toList) ("foreground".toList) = some ("0xFFFFFF".toList) :=
  c6_amended exScheme (by decide) (by decide) (by decide)

/-- C7: a palette with fewer than 16 entries makes `convert` fail (the
`Palette(*palette[8:])` arity check cannot be met), never truncating or
padding. -/
theorem c7_short_palette (j : TilixScheme) (h : j.palette.length < 16) :
    convert j = none := by
  have hd : mkPalette ((j.palette.map fixup_hex_color).drop 8) = none := by
    apply mkPalette_eq_none
    rw [List.length_drop, List.length_map]
    omega
  cases hp : mkPalette ((j.palette.map fixup_hex_color).take 8) <;>
    simp [convert, hp, hd]

/-- C7 witness: a two-entry palette. -/
theorem c7_short_palette_witness :
    shortScheme.palette.length < 16 ∧ convert shortScheme = none :=
  ⟨by decide, c7_short_palette shortScheme (by decide)⟩

/-- C8 is false as stated: the value `"abc\n"` contains a
non-alphanumeric character (the newline), yet Python's `$` matches just
before a trailing newline, so `re.match(r'^[a-zA-Z0-9]+$', ...)` succeeds
and the tool proceeds to write `brand_name.txt` instead of exiting. -/
theorem c8_counterexample :
    ("abc\n".toList.any (fun c => !c.isAlphanum) = true) ∧
      rebrand_main ("your_brand".toList) [] true false ("abc\n".toList) =
        .proceeds ["brand_name.txt".toList] := by
  decide

/-- C8 (amended): a `--new` value that is not fully alphanumeric — except
for the single-trailing-newline form accepted by the regex — makes the
tool exit with status 1 having performed no file write, whatever the
working directory and brand folder (given a plain `--new` run, no
`--revert`). -/
theorem c8_invalid_new_exits (cwd brand : List Char) (bex : Bool) (newArg : List Char)
    (hbad : newArg.all Char.isAlphanum = false)
    (hnl : ¬(newArg.getLast? = some '\n' ∧ newArg.dropLast ≠ [] ∧
      newArg.dropLast.all Char.isAlphanum = true)) :
    rebrand_main cwd brand bex false newArg = .earlyExit 1 [] := by
  have hre : reMatchAlnumLine newArg = false := by
    rw [reMatchAlnumLine, hbad]
    simp only [Bool.and_false, Bool.false_or]
    by_cases hlast : newArg.getLast? = some '\n'
    · by_cases hdl : newArg.dropLast = []
      · simp [hdl]
      · cases hall : newArg.dropLast.all Char.isAlphanum
        · simp [hall]
        · exact absurd ⟨hlast, hdl, hall⟩ hnl
    · simp [beq_iff_eq, hlast]
  simp [rebrand_main, hre]

/-- C8 witness: the amended statement at `--new "a b"`. -/
theorem c8_invalid_new_exits_witness :
    rebrand_main ("your_brand".toList) [] true false ("a b".toList) = .earlyExit 1 [] :=
  c8_invalid_new_exits ("your_brand".toList) [] true ("a b".toList) (by decide) (by decide)

/-- C9: the source's same-name check compares the bound method
`str.lower` to `"alacritty"` without calling it, so it never fires: with
`--new alacritty` the tool does not exit at that check and proceeds to
write `brand_name.txt`. -/
theorem c9_same_name_not_rejected :
    rebrand_main ("your_brand".toList) [] true false ("alacritty".toList) =
      .proceeds ["brand_name.txt".toList] := by
  decide
